import Mathlib

/-!
Shallow embedding of the glasscast ray-casting engine (src/src/main.rs).

Conventions of the embedding:
* The f32 scalar type of the source is embedded as the exact rationals ℚ.
  All scalar operations the engine performs (addition, subtraction,
  multiplication, division, comparison, clamping) are embedded exactly;
  the engine never relies on float rounding for its control flow at the
  inputs considered here.
* The point-to-segment euclidean distance comparison dist < 1.0 of
  find_intersect is embedded as the equivalent squared comparison
  distSq < 1.0, avoiding the square root while deciding exactly the same
  predicate.
* u8 color channels are embedded as ℕ (intended range 0..255); the u8
  cast after clamp(0, 255) is exact on that range.
* The pixel sink (raylib draw_pixel_v) is embedded by having the march
  return the list of (pixel, color) pairs it draws, in order.
* The unbounded `loop` of trace_and_plot is embedded with explicit fuel:
  the result pairs the emitted writes with a Bool that is true when the
  loop returned (hit the out-of-window exit) and false when the fuel ran
  out with the loop still running.
-/

/-- A 2D vector, embedding raylib Vector2 with exact rational coordinates. -/
structure Vec2 where
  x : ℚ
  y : ℚ
deriving DecidableEq

/-- Componentwise vector addition. -/
def Vec2.add (u v : Vec2) : Vec2 := ⟨u.x + v.x, u.y + v.y⟩

/-- Componentwise vector subtraction. -/
def Vec2.sub (u v : Vec2) : Vec2 := ⟨u.x - v.x, u.y - v.y⟩

/-- Componentwise vector product: raylib Vector2 * Vector2 (used for position * window_vec). -/
def Vec2.cmul (u v : Vec2) : Vec2 := ⟨u.x * v.x, u.y * v.y⟩

/-- Scalar product: raylib Vector2 * f32 (used for normal * magnitude). -/
def Vec2.smul (k : ℚ) (u : Vec2) : Vec2 := ⟨k * u.x, k * u.y⟩

/-- Dot product. -/
def Vec2.dot (u v : Vec2) : ℚ := u.x * v.x + u.y * v.y

/-- Squared euclidean norm. -/
def Vec2.normSq (u : Vec2) : ℚ := Vec2.dot u u

/-- An rgba color, embedding raylib Color; channels are u8 in the source. -/
structure Color where
  r : ℕ
  g : ℕ
  b : ℕ
  a : ℕ
deriving DecidableEq

/-- Color::BLACK of raylib: opaque black, the sentinel for no occlusion. -/
def Color.BLACK : Color := ⟨0, 0, 0, 255⟩

/-- A wall: segment endpoints plus resolved color (struct Wall; the cached
geo line is recomputed from the endpoints here rather than stored). -/
structure Wall where
  color : Color
  start : Vec2
  endPt : Vec2
deriving DecidableEq

/-- The light: emission origin, base color, and the fixed flag (struct Light). -/
structure Light where
  fixed : Bool
  color : Color
  position : Vec2
deriving DecidableEq

/-- The world: ordered walls plus exactly one light (struct World). -/
structure World where
  walls : List Wall
  light : Light
deriving DecidableEq

/-- Squared point-to-segment euclidean distance, embedding the geo crate
line_segment_distance used by Wall.line.euclidean_distance(point): project
the point onto the segment, clamp the parameter to [0, 1], and measure to
the resulting closest point. Squaring is exact over ℚ and order-preserving. -/
def segDistSq (s e p : Vec2) : ℚ :=
  if s = e then Vec2.normSq (Vec2.sub p s)
  else
    let d := Vec2.sub e s
    let r := Vec2.dot (Vec2.sub p s) d / Vec2.normSq d
    if r ≤ 0 then Vec2.normSq (Vec2.sub p s)
    else if 1 ≤ r then Vec2.normSq (Vec2.sub p e)
    else Vec2.normSq (Vec2.sub p (Vec2.add s (Vec2.smul r d)))

/-- fn find_intersect: true when the point is strictly within euclidean
distance 1.0 of the wall segment (dist < 1.0 iff distSq < 1.0). -/
def find_intersect (wall : Wall) (point : Vec2) : Bool :=
  decide (segDistSq wall.start wall.endPt point < 1)

/-- The wall-scanning loop of get_color_modifier_of_pixel: return the color
of the first wall the probe hits, else Color::BLACK. -/
def firstHitColor : List Wall → Vec2 → Color
  | [], _ => Color.BLACK
  | w :: ws, p => if find_intersect w p then w.color else firstHitColor ws p

/-- fn get_color_modifier_of_pixel. -/
def get_color_modifier_of_pixel (pixel : Vec2) (world : World) : Color :=
  firstHitColor world.walls pixel

/-- The per-channel arithmetic of plot: (ray - modifier).clamp(0, 255) as u8.
The f32 arithmetic is exact on u8-range integers. -/
def clampChannel (x : ℤ) : ℕ := (max 0 (min x 255)).toNat

/-- The ray-color update of plot: subtract the modifier per channel with
clamping, and force alpha to 255. -/
def attenuate (ray modifier : Color) : Color :=
  ⟨clampChannel ((ray.r : ℤ) - (modifier.r : ℤ)),
   clampChannel ((ray.g : ℤ) - (modifier.g : ℤ)),
   clampChannel ((ray.b : ℤ) - (modifier.b : ℤ)),
   255⟩

/-- The pixel computed by plot: (normal * magnitude) + (position * window_vec). -/
def pixelAt (position normal window : Vec2) (magnitude : ℚ) : Vec2 :=
  Vec2.add (Vec2.smul magnitude normal) (Vec2.cmul position window)

/-- The probe formula exactly as the spec words it, pixel = light.position
+ normal * magnitude, for comparison with pixelAt of the source. -/
def specProbePoint (position normal : Vec2) (magnitude : ℚ) : Vec2 :=
  Vec2.add position (Vec2.smul magnitude normal)

/-- Membership of a point in the closed window rectangle [0, w.x] x [0, w.y]. -/
def inWindow (p window : Vec2) : Prop :=
  0 ≤ p.x ∧ p.x ≤ window.x ∧ 0 ≤ p.y ∧ p.y ≤ window.y

instance (p window : Vec2) : Decidable (inWindow p window) := by
  unfold inWindow; exact inferInstance

/-- fn plot: compute the pixel; return none when it lies outside the window
(the source tests pixel.x < 0 || pixel.x > window.x || pixel.y < 0 ||
pixel.y > window.y); otherwise attenuate the ray color by the occlusion
modifier at that pixel, draw, and return. The some payload pairs the drawn
pixel (the draw_pixel_v side effect target) with the drawn/returned color. -/
def plot (position normal : Vec2) (magnitude : ℚ) (window : Vec2)
    (ray_color : Color) (world : World) : Option (Vec2 × Color) :=
  let pixel := pixelAt position normal window magnitude
  if pixel.x < 0 ∨ window.x < pixel.x ∨ pixel.y < 0 ∨ window.y < pixel.y then
    none
  else
    some (pixel, attenuate ray_color (get_color_modifier_of_pixel pixel world))

/-- The fixed march step: magnitude += 2.0 each iteration of trace_and_plot. -/
def stepSize : ℚ := 2

/-- The magnitude at the k-th plot call of the march: 0.0, then += 2.0 per step. -/
def magAt (k : ℕ) : ℚ := stepSize * k

/-- The loop body of trace_and_plot, with fuel. Returns the list of pixel
writes and true when the loop exited via the out-of-window branch, or the
writes so far and false when the fuel ran out with the loop still running. -/
def traceAux (position normal window : Vec2) (world : World) :
    ℕ → Color → ℕ → List (Vec2 × Color) × Bool
  | 0, _, _ => ([], false)
  | fuel + 1, color, k =>
    match plot position normal (magAt k) window color world with
    | none => ([], true)
    | some (pix, c) =>
      let rest := traceAux position normal window world fuel c (k + 1)
      ((pix, c) :: rest.1, rest.2)

/-- fn trace_and_plot: march from magnitude 0 carrying the ray color forward. -/
def trace_and_plot (position normal window : Vec2) (ray_color : Color)
    (world : World) (fuel : ℕ) : List (Vec2 × Color) × Bool :=
  traceAux position normal window world fuel ray_color 0

/-- The angle schedule of the sweep loop in main: for angle in 0..360. -/
def sweepAngles : List ℕ := List.range 360

/-- The direction vector main builds for an angle: (cos(to_radians(angle)),
sin(to_radians(angle))). The f32 functions cos, sin and to_radians are kept
abstract as parameters c, s, rad. -/
def sweepNormal (c s rad : ℚ → ℚ) (angle : ℕ) : Vec2 :=
  ⟨c (rad angle), s (rad angle)⟩

/-- The sweep loop of main: one trace_and_plot call per angle of 0..360 in
iteration order. -/
def sweepTraces (c s rad : ℚ → ℚ) (position window : Vec2) (ray_color : Color)
    (world : World) (fuel : ℕ) : List (List (Vec2 × Color) × Bool) :=
  sweepAngles.map (fun a => trace_and_plot position (sweepNormal c s rad a) window ray_color world fuel)

/-- A segment for the determinant-form intersection test. -/
structure Seg where
  s : Vec2
  e : Vec2
deriving DecidableEq

/-- Modelled from the spec: the determinant-form segment intersection test
of section 4.1 is not present in src (the shipped occlusion probe of
find_intersect is distance-based); the spec gives its algorithm: a = y2-y1,
b = x1-x2, c = a*x1 + b*y1 for each segment, delta = a1*b2 - a2*b1, report
no intersection when delta == 0, else solve the 2x2 system for the
intersection of the infinite lines. -/
def find_line_intersect (A B : Seg) : Option Vec2 :=
  let a1 := A.e.y - A.s.y
  let b1 := A.s.x - A.e.x
  let c1 := a1 * A.s.x + b1 * A.s.y
  let a2 := B.e.y - B.s.y
  let b2 := B.s.x - B.e.x
  let c2 := a2 * B.s.x + b2 * B.s.y
  let delta := a1 * b2 - a2 * b1
  if delta = 0 then none
  else some ⟨(b2 * c1 - b1 * c2) / delta, (a1 * c2 - a2 * c1) / delta⟩

/-- The direction vector of a segment. -/
def segDir (A : Seg) : Vec2 := Vec2.sub A.e A.s

/-- The 2D cross product; two segments are parallel iff it vanishes on
their directions. -/
def cross2 (u v : Vec2) : ℚ := u.x * v.y - u.y * v.x

/-- The line equation a*x + b*y = c of the spec, for the infinite line
through a segment. -/
def onLineOf (A : Seg) (p : Vec2) : Prop :=
  (A.e.y - A.s.y) * p.x + (A.s.x - A.e.x) * p.y =
    (A.e.y - A.s.y) * A.s.x + (A.s.x - A.e.x) * A.s.y

/-- An empty world used for concrete evaluations: no walls, opaque white light. -/
def emptyWorld : World :=
  ⟨[], ⟨true, ⟨255, 255, 255, 255⟩, ⟨0, 0⟩⟩⟩

/-- A world with a single wall crossing the x axis at x = 3, strictly
between the sample points x = 2 and x = 4 of a march along the x axis. -/
def wallWorld : World :=
  ⟨[⟨⟨50, 60, 70, 255⟩, ⟨3, -5⟩, ⟨3, 5⟩⟩], ⟨true, ⟨255, 255, 255, 255⟩, ⟨0, 0⟩⟩⟩

/-- A world with a single wall crossing the x axis exactly at the sample
point x = 4 of a march along the x axis. -/
def crossWorld : World :=
  ⟨[⟨⟨100, 0, 0, 255⟩, ⟨4, -5⟩, ⟨4, 5⟩⟩, ⟨⟨7, 8, 9, 255⟩, ⟨4, -6⟩, ⟨4, 6⟩⟩],
   ⟨true, ⟨255, 255, 255, 255⟩, ⟨0, 0⟩⟩⟩

/-- A zero-wall world whose light color is not fully opaque. -/
def alphaWorld : World :=
  ⟨[], ⟨true, ⟨10, 20, 30, 0⟩, ⟨0, 0⟩⟩⟩

/-- A constant function used to instantiate the abstract trigonometric
parameters of the sweep at a concrete input. -/
def constOne : ℚ → ℚ := fun _ => 1

example : pixelAt ⟨0, 0⟩ ⟨1, 0⟩ ⟨10, 10⟩ (magAt 3) = ⟨6, 0⟩ := by
  norm_num [pixelAt, magAt, stepSize, Vec2.add, Vec2.smul, Vec2.cmul]

example :
    trace_and_plot ⟨0, 0⟩ ⟨1, 0⟩ ⟨4, 4⟩ ⟨10, 20, 30, 0⟩ emptyWorld 5 =
      ([(⟨0, 0⟩, ⟨10, 20, 30, 255⟩), (⟨2, 0⟩, ⟨10, 20, 30, 255⟩),
        (⟨4, 0⟩, ⟨10, 20, 30, 255⟩)], true) := by
  norm_num [trace_and_plot, traceAux, plot, pixelAt, magAt, stepSize, Vec2.add,
    Vec2.smul, Vec2.cmul, get_color_modifier_of_pixel, firstHitColor, emptyWorld,
    attenuate, clampChannel, Color.BLACK]; omega

/-! ## Helper lemmas -/

theorem oob_iff (p window : Vec2) :
    (p.x < 0 ∨ window.x < p.x ∨ p.y < 0 ∨ window.y < p.y) ↔ ¬ inWindow p window := by
  unfold inWindow
  simp only [not_and_or, not_le]

theorem plot_eq_none_iff (position normal : Vec2) (magnitude : ℚ) (window : Vec2)
    (c : Color) (world : World) :
    plot position normal magnitude window c world = none ↔
      ¬ inWindow (pixelAt position normal window magnitude) window := by
  rw [← oob_iff]
  simp only [plot]
  split
  next h => simpa using h
  next h => simpa using h

theorem plot_eq_some (position normal : Vec2) (magnitude : ℚ) (window : Vec2)
    (c : Color) (world : World) (pix : Vec2) (col : Color)
    (h : plot position normal magnitude window c world = some (pix, col)) :
    pix = pixelAt position normal window magnitude ∧
      col = attenuate c (get_color_modifier_of_pixel pix world) ∧
      inWindow pix window := by
  simp only [plot] at h
  split at h
  · exact absurd h (by simp)
  · rename_i hcond
    rw [Option.some_inj, Prod.mk.injEq] at h
    obtain ⟨hp, hc⟩ := h
    subst hp
    refine ⟨rfl, hc.symm, ?_⟩
    by_contra hin
    exact hcond ((oob_iff _ _).mpr hin)

theorem clampChannel_le_255 (x : ℤ) : clampChannel x ≤ 255 := by
  unfold clampChannel
  omega

theorem clampChannel_le (x : ℤ) (n : ℕ) (h : x ≤ n) : clampChannel x ≤ n := by
  unfold clampChannel
  omega

theorem clampChannel_of_le (n : ℕ) (h : n ≤ 255) : clampChannel n = n := by
  unfold clampChannel
  omega

theorem attenuate_a (c m : Color) : (attenuate c m).a = 255 := rfl

theorem attenuate_le_255 (c m : Color) :
    (attenuate c m).r ≤ 255 ∧ (attenuate c m).g ≤ 255 ∧ (attenuate c m).b ≤ 255 :=
  ⟨clampChannel_le_255 _, clampChannel_le_255 _, clampChannel_le_255 _⟩

theorem attenuate_le (c m : Color) :
    (attenuate c m).r ≤ c.r ∧ (attenuate c m).g ≤ c.g ∧ (attenuate c m).b ≤ c.b := by
  refine ⟨clampChannel_le _ _ ?_, clampChannel_le _ _ ?_, clampChannel_le _ _ ?_⟩ <;> omega

theorem attenuate_black (c : Color) (hr : c.r ≤ 255) (hg : c.g ≤ 255) (hb : c.b ≤ 255) :
    attenuate c Color.BLACK = ⟨c.r, c.g, c.b, 255⟩ := by
  simp only [attenuate, Color.BLACK, clampChannel, Color.mk.injEq]
  refine ⟨?_, ?_, ?_, trivial⟩ <;> omega

theorem traceAux_pix (position normal window : Vec2) (world : World) :
    ∀ fuel (color : Color) (k i : ℕ) x,
      ((traceAux position normal window world fuel color k).1)[i]? = some x →
      x.1 = pixelAt position normal window (magAt (k + i)) := by
  intro fuel
  induction fuel with
  | zero => intro color k i x h; simp [traceAux] at h
  | succ fuel ih =>
    intro color k i x h
    simp only [traceAux] at h
    cases hp : plot position normal (magAt k) window color world with
    | none => simp [hp] at h
    | some pc =>
      obtain ⟨pix, c⟩ := pc
      simp only [hp] at h
      cases i with
      | zero =>
        rw [List.getElem?_cons_zero, Option.some_inj] at h
        subst h
        have := plot_eq_some position normal (magAt k) window color world pix c hp
        simpa using this.1
      | succ i =>
        rw [List.getElem?_cons_succ] at h
        have := ih c (k + 1) i x h
        rwa [show k + 1 + i = k + (i + 1) by omega] at this

theorem traceAux_mem (position normal window : Vec2) (world : World) :
    ∀ fuel (color : Color) (k : ℕ) x,
      x ∈ (traceAux position normal window world fuel color k).1 →
      inWindow x.1 window ∧ x.2.a = 255 ∧
        x.2.r ≤ 255 ∧ x.2.g ≤ 255 ∧ x.2.b ≤ 255 ∧
        x.2.r ≤ color.r ∧ x.2.g ≤ color.g ∧ x.2.b ≤ color.b := by
  intro fuel
  induction fuel with
  | zero => intro color k x h; simp [traceAux] at h
  | succ fuel ih =>
    intro color k x h
    simp only [traceAux] at h
    cases hp : plot position normal (magAt k) window color world with
    | none => simp [hp] at h
    | some pc =>
      obtain ⟨pix, c⟩ := pc
      simp only [hp, List.mem_cons] at h
      obtain ⟨hpix, hc, hiw⟩ := plot_eq_some position normal (magAt k) window color world pix c hp
      cases h with
      | inl h =>
        subst h
        have h255 := attenuate_le_255 color (get_color_modifier_of_pixel pix world)
        have hle := attenuate_le color (get_color_modifier_of_pixel pix world)
        rw [← hc] at h255 hle
        exact ⟨hiw, by rw [hc]; exact attenuate_a _ _,
          h255.1, h255.2.1, h255.2.2, hle.1, hle.2.1, hle.2.2⟩
      | inr h =>
        obtain ⟨h1, h2, h3, h4, h5, h6, h7, h8⟩ := ih c (k + 1) x h
        have hle := attenuate_le color (get_color_modifier_of_pixel pix world)
        rw [← hc] at hle
        exact ⟨h1, h2, h3, h4, h5, h6.trans hle.1, h7.trans hle.2.1, h8.trans hle.2.2⟩

theorem traceAux_consec (position normal window : Vec2) (world : World) :
    ∀ fuel (color : Color) (k i : ℕ) a b,
      ((traceAux position normal window world fuel color k).1)[i]? = some a →
      ((traceAux position normal window world fuel color k).1)[i + 1]? = some b →
      b.2.r ≤ a.2.r ∧ b.2.g ≤ a.2.g ∧ b.2.b ≤ a.2.b := by
  intro fuel
  induction fuel with
  | zero => intro color k i a b ha hb; simp [traceAux] at ha
  | succ fuel ih =>
    intro color k i a b ha hb
    simp only [traceAux] at ha hb
    cases hp : plot position normal (magAt k) window color world with
    | none => simp [hp] at ha
    | some pc =>
      obtain ⟨pix, c⟩ := pc
      simp only [hp] at ha hb
      cases i with
      | zero =>
        rw [List.getElem?_cons_zero, Option.some_inj] at ha
        subst ha
        rw [List.getElem?_cons_succ] at hb
        have hmem := traceAux_mem position normal window world fuel c (k + 1) b
          (List.getElem?_mem hb)
        exact ⟨hmem.2.2.2.2.2.1, hmem.2.2.2.2.2.2.1, hmem.2.2.2.2.2.2.2⟩
      | succ i =>
        rw [List.getElem?_cons_succ] at ha hb
        exact ih c (k + 1) i a b ha hb

theorem traceAux_done (position normal window : Vec2) (world : World) :
    ∀ fuel (color : Color) (k : ℕ),
      (traceAux position normal window world fuel color k).2 = true →
      (∀ j < (traceAux position normal window world fuel color k).1.length,
          inWindow (pixelAt position normal window (magAt (k + j))) window) ∧
      ¬ inWindow
          (pixelAt position normal window
            (magAt (k + (traceAux position normal window world fuel color k).1.length)))
          window := by
  intro fuel
  induction fuel with
  | zero => intro color k h; simp [traceAux] at h
  | succ fuel ih =>
    intro color k h
    simp only [traceAux] at h ⊢
    cases hp : plot position normal (magAt k) window color world with
    | none =>
      simp only [hp, List.length_nil]
      constructor
      · intro j hj; omega
      · rw [Nat.add_zero]
        exact (plot_eq_none_iff position normal (magAt k) window color world).mp hp
    | some pc =>
      obtain ⟨pix, c⟩ := pc
      simp only [hp] at h ⊢
      obtain ⟨hpix, hcol, hiw⟩ := plot_eq_some position normal (magAt k) window color world pix c hp
      obtain ⟨ih1, ih2⟩ := ih c (k + 1) h
      constructor
      · intro j hj
        cases j with
        | zero => rw [Nat.add_zero]; rwa [hpix] at hiw
        | succ j =>
          rw [show k + (j + 1) = k + 1 + j by omega]
          exact ih1 j (by simpa using hj)
      · rw [List.length_cons,
          show k + ((traceAux position normal window world fuel c (k + 1)).1.length + 1)
            = k + 1 + (traceAux position normal window world fuel c (k + 1)).1.length by omega]
        exact ih2

theorem traceAux_exit (position normal window : Vec2) (world : World) :
    ∀ fuel (color : Color) (k j : ℕ), j < fuel →
      ¬ inWindow (pixelAt position normal window (magAt (k + j))) window →
      (traceAux position normal window world fuel color k).2 = true := by
  intro fuel
  induction fuel with
  | zero => intro color k j hj _; omega
  | succ fuel ih =>
    intro color k j hj hout
    simp only [traceAux]
    cases hp : plot position normal (magAt k) window color world with
    | none => simp [hp]
    | some pc =>
      obtain ⟨pix, c⟩ := pc
      simp only [hp]
      obtain ⟨hpix, hcol, hiw⟩ := plot_eq_some position normal (magAt k) window color world pix c hp
      cases j with
      | zero =>
        rw [Nat.add_zero] at hout
        rw [hpix] at hiw
        exact absurd hiw hout
      | succ j =>
        exact ih c (k + 1) j (by omega)
          (by rwa [show k + 1 + j = k + (j + 1) by omega])

theorem traceAux_zero_walls (position normal window : Vec2) (world : World)
    (hw : world.walls = []) :
    ∀ fuel (color : Color) (k : ℕ), color.r ≤ 255 → color.g ≤ 255 → color.b ≤ 255 →
      ∀ x ∈ (traceAux position normal window world fuel color k).1,
        x.2 = ⟨color.r, color.g, color.b, 255⟩ := by
  intro fuel
  induction fuel with
  | zero => intro color k _ _ _ x h; simp [traceAux] at h
  | succ fuel ih =>
    intro color k hr hg hb x h
    simp only [traceAux] at h
    cases hp : plot position normal (magAt k) window color world with
    | none => simp [hp] at h
    | some pc =>
      obtain ⟨pix, c⟩ := pc
      simp only [hp, List.mem_cons] at h
      obtain ⟨hpix, hcol, hiw⟩ := plot_eq_some position normal (magAt k) window color world pix c hp
      have hmod : get_color_modifier_of_pixel pix world = Color.BLACK := by
        simp [get_color_modifier_of_pixel, hw, firstHitColor]
      have hc : c = ⟨color.r, color.g, color.b, 255⟩ := by
        rw [hcol, hmod]
        exact attenuate_black color hr hg hb
      cases h with
      | inl h => rw [h, hc]
      | inr h =>
        have := ih c (k + 1) (by rw [hc]; exact hr) (by rw [hc]; exact hg)
          (by rw [hc]; exact hb) x h
        rw [hc] at this
        simpa using this

theorem magAt_lt (k : ℕ) : magAt k < magAt (k + 1) := by
  unfold magAt stepSize
  push_cast
  linarith

theorem exists_exit (position normal window : Vec2)
    (h : normal.x ≠ 0 ∨ normal.y ≠ 0) :
    ∃ k : ℕ, ¬ inWindow (pixelAt position normal window (magAt k)) window := by
  have key : ∀ n c w : ℚ, n ≠ 0 → ∃ k : ℕ, magAt k * n + c < 0 ∨ w < magAt k * n + c := by
    intro n c w hn
    rcases lt_or_gt_of_ne hn with hneg | hpos
    · obtain ⟨k, hk⟩ := exists_nat_gt (c / (2 * -n))
      have h2 : (0:ℚ) < 2 * -n := by linarith
      have h3 : c < ↑k * (2 * -n) := by rwa [div_lt_iff₀ h2] at hk
      refine ⟨k, Or.inl ?_⟩
      unfold magAt stepSize
      nlinarith
    · obtain ⟨k, hk⟩ := exists_nat_gt ((w - c) / (2 * n))
      have h2 : (0:ℚ) < 2 * n := by linarith
      have h3 : w - c < ↑k * (2 * n) := by rwa [div_lt_iff₀ h2] at hk
      refine ⟨k, Or.inr ?_⟩
      unfold magAt stepSize
      nlinarith
  cases h with
  | inl hx =>
    obtain ⟨k, hk⟩ := key normal.x (position.x * window.x) window.x hx
    refine ⟨k, fun hin => ?_⟩
    have hpx : (pixelAt position normal window (magAt k)).x
        = magAt k * normal.x + position.x * window.x := by
      simp [pixelAt, Vec2.add, Vec2.smul, Vec2.cmul]
    unfold inWindow at hin
    obtain ⟨h1, h2, _, _⟩ := hin
    rw [hpx] at h1 h2
    rcases hk with hk | hk <;> linarith
  | inr hy =>
    obtain ⟨k, hk⟩ := key normal.y (position.y * window.y) window.y hy
    refine ⟨k, fun hin => ?_⟩
    have hpy : (pixelAt position normal window (magAt k)).y
        = magAt k * normal.y + position.y * window.y := by
      simp [pixelAt, Vec2.add, Vec2.smul, Vec2.cmul]
    unfold inWindow at hin
    obtain ⟨_, _, h3, h4⟩ := hin
    rw [hpy] at h3 h4
    rcases hk with hk | hk <;> linarith

/-! ## Claims -/

/-- C1 counterexample: the claim says the probe point is pixel =
light.position + normal * magnitude, but plot computes pixel =
normal * magnitude + position * window_vec; at position (1,1), normal
(1,0), window (800,600) and magnitude 0 the two differ. -/
theorem C1_counterexample :
    pixelAt ⟨1, 1⟩ ⟨1, 0⟩ ⟨800, 600⟩ 0 ≠ specProbePoint ⟨1, 1⟩ ⟨1, 0⟩ 0 := by
  norm_num [pixelAt, specProbePoint, Vec2.add, Vec2.smul, Vec2.cmul, Vec2.mk.injEq]

/-- C1 (amended): at every step of the march the probe point is pixel =
normal * magnitude + light.position * window_vec (the normalized light
position is scaled by the window size; wall coordinates receive no
mapping), and the very same pixel is used both for the occlusion lookup
that modifies the ray color and for the canvas write. -/
theorem C1_theorem :
    ∀ (position normal : Vec2) (magnitude : ℚ) (window : Vec2) (c : Color) (world : World)
      (pix : Vec2) (col : Color),
      (plot position normal magnitude window c world = some (pix, col) →
        pix = Vec2.add (Vec2.smul magnitude normal) (Vec2.cmul position window) ∧
        col = attenuate c (get_color_modifier_of_pixel pix world)) ∧
      ∀ fuel i x,
        ((trace_and_plot position normal window c world fuel).1)[i]? = some x →
        x.1 = Vec2.add (Vec2.smul (magAt i) normal) (Vec2.cmul position window) := by
  intro position normal magnitude window c world pix col
  constructor
  · intro h
    obtain ⟨hp, hc, _⟩ := plot_eq_some position normal magnitude window c world pix col h
    exact ⟨by rw [hp]; rfl, hc⟩
  · intro fuel i x h
    have := traceAux_pix position normal window world fuel c 0 i x h
    simpa [pixelAt] using this

/-- C1 witness: concrete instantiation of the amended claim at position
(0,0), normal (1,0), window (10,10) in the empty world. -/
theorem C1_witness :
    ((⟨0, 0⟩ : Vec2) = Vec2.add (Vec2.smul 0 ⟨1, 0⟩) (Vec2.cmul ⟨0, 0⟩ ⟨10, 10⟩) ∧
      (⟨255, 255, 255, 255⟩ : Color) =
        attenuate ⟨255, 255, 255, 255⟩ (get_color_modifier_of_pixel ⟨0, 0⟩ emptyWorld)) ∧
    (⟨0, 0⟩ : Vec2) = Vec2.add (Vec2.smul (magAt 0) ⟨1, 0⟩) (Vec2.cmul ⟨0, 0⟩ ⟨10, 10⟩) := by
  constructor
  · exact (C1_theorem ⟨0, 0⟩ ⟨1, 0⟩ 0 ⟨10, 10⟩ ⟨255, 255, 255, 255⟩ emptyWorld
      ⟨0, 0⟩ ⟨255, 255, 255, 255⟩).1
      (by norm_num [plot, pixelAt, Vec2.add, Vec2.smul, Vec2.cmul,
        get_color_modifier_of_pixel, firstHitColor, emptyWorld, attenuate, clampChannel,
        Color.BLACK]; omega)
  · exact (C1_theorem ⟨0, 0⟩ ⟨1, 0⟩ 0 ⟨10, 10⟩ ⟨255, 255, 255, 255⟩ emptyWorld
      ⟨0, 0⟩ ⟨255, 255, 255, 255⟩).2 5 0 (⟨0, 0⟩, ⟨255, 255, 255, 255⟩)
      (by norm_num [trace_and_plot, traceAux, plot, pixelAt, magAt, stepSize, Vec2.add,
        Vec2.smul, Vec2.cmul, get_color_modifier_of_pixel, firstHitColor, emptyWorld,
        attenuate, clampChannel, Color.BLACK]; omega)

/-- C2 counterexample: the march step is 2.0, which exceeds the 1.0-unit
point-to-segment threshold of the occlusion test, and a wall crossing the
ray path at x = 3 — strictly between the consecutive samples x = 2 and
x = 4 — is skipped: the full march over a 10 x 10 window emits only the
unattenuated base color. -/
theorem C2_counterexample :
    (magAt 1 - magAt 0 = stepSize ∧ ¬ stepSize ≤ 1) ∧
    trace_and_plot ⟨0, 0⟩ ⟨1, 0⟩ ⟨10, 10⟩ ⟨255, 255, 255, 255⟩ wallWorld 7 =
      ([(⟨0, 0⟩, ⟨255, 255, 255, 255⟩), (⟨2, 0⟩, ⟨255, 255, 255, 255⟩),
        (⟨4, 0⟩, ⟨255, 255, 255, 255⟩), (⟨6, 0⟩, ⟨255, 255, 255, 255⟩),
        (⟨8, 0⟩, ⟨255, 255, 255, 255⟩), (⟨10, 0⟩, ⟨255, 255, 255, 255⟩)], true) := by
  refine ⟨⟨by norm_num [magAt, stepSize], by norm_num [stepSize]⟩, ?_⟩
  norm_num [trace_and_plot, traceAux, plot, pixelAt, magAt, stepSize, Vec2.add, Vec2.smul,
    Vec2.cmul, Vec2.sub, Vec2.dot, Vec2.normSq, get_color_modifier_of_pixel, firstHitColor,
    find_intersect, segDistSq, wallWorld, attenuate, clampChannel, Color.BLACK,
    Vec2.mk.injEq]; omega

/-- C2 (amended): the march advances magnitude by the fixed step 2.0 each
iteration; this step exceeds the 1.0-unit point-to-segment distance
threshold used by the occlusion test, so a thin wall crossing between
consecutive samples can be tunneled through. -/
theorem C2_theorem :
    (∀ k : ℕ, magAt (k + 1) = magAt k + stepSize) ∧ stepSize = 2 ∧ ¬ stepSize ≤ 1 := by
  refine ⟨?_, by norm_num [stepSize], by norm_num [stepSize]⟩
  intro k
  unfold magAt stepSize
  push_cast
  ring

/-- C3: the occlusion lookup returns the color of the first wall in
collection order whose segment lies strictly within euclidean distance
1.0 of the sample point (squared distance below 1), and the opaque black
sentinel when no wall is within the threshold. -/
theorem C3_theorem :
    ∀ (p : Vec2) (world : World),
      ((∀ w ∈ world.walls, ¬ segDistSq w.start w.endPt p < 1) →
        get_color_modifier_of_pixel p world = Color.BLACK) ∧
      ∀ l1 (w : Wall) l2, world.walls = l1 ++ w :: l2 →
        segDistSq w.start w.endPt p < 1 →
        (∀ u ∈ l1, ¬ segDistSq u.start u.endPt p < 1) →
        get_color_modifier_of_pixel p world = w.color := by
  intro p world
  have miss : ∀ (ws : List Wall), (∀ w ∈ ws, ¬ segDistSq w.start w.endPt p < 1) →
      firstHitColor ws p = Color.BLACK := by
    intro ws
    induction ws with
    | nil => intro _; rfl
    | cons w ws ih =>
      intro h
      have hw := h w (List.mem_cons_self w ws)
      simp only [firstHitColor, find_intersect]
      rw [if_neg (by simp only [decide_eq_true_eq]; exact hw)]
      exact ih fun u hu => h u (List.mem_cons_of_mem w hu)
  have hit : ∀ (l1 : List Wall) (w : Wall) (l2 : List Wall),
      segDistSq w.start w.endPt p < 1 →
      (∀ u ∈ l1, ¬ segDistSq u.start u.endPt p < 1) →
      firstHitColor (l1 ++ w :: l2) p = w.color := by
    intro l1 w l2 hw
    induction l1 with
    | nil =>
      intro _
      simp only [List.nil_append, firstHitColor, find_intersect]
      rw [if_pos (decide_eq_true hw)]
    | cons u l1 ih =>
      intro hmiss
      have hu := hmiss u (List.mem_cons_self u l1)
      simp only [List.cons_append, firstHitColor, find_intersect]
      rw [if_neg (by simp only [decide_eq_true_eq]; exact hu)]
      exact ih fun v hv => hmiss v (List.mem_cons_of_mem u hv)
  constructor
  · intro h
    exact miss world.walls h
  · intro l1 w l2 hsplit hw hmiss
    unfold get_color_modifier_of_pixel
    rw [hsplit]
    exact hit l1 w l2 hw hmiss

/-- C3 witness: in a world with two walls both within threshold of the
sample point (4,0), the first wall in collection order wins. -/
theorem C3_witness :
    get_color_modifier_of_pixel ⟨4, 0⟩ crossWorld = ⟨100, 0, 0, 255⟩ := by
  refine (C3_theorem ⟨4, 0⟩ crossWorld).2 []
    ⟨⟨100, 0, 0, 255⟩, ⟨4, -5⟩, ⟨4, 5⟩⟩ [⟨⟨7, 8, 9, 255⟩, ⟨4, -6⟩, ⟨4, 6⟩⟩]
    rfl ?_ ?_
  · norm_num [segDistSq, Vec2.sub, Vec2.dot, Vec2.normSq, Vec2.add, Vec2.smul, Vec2.mk.injEq]
  · intro u hu
    simp at hu

/-- C4: every color emitted to the pixel sink has its r, g, b channels at
most 255 (they are naturals, so at least 0) and its alpha channel equal
to 255, for every input color, world and step. -/
theorem C4_theorem :
    ∀ (position normal window : Vec2) (c : Color) (world : World) (fuel : ℕ) x,
      x ∈ (trace_and_plot position normal window c world fuel).1 →
      x.2.r ≤ 255 ∧ x.2.g ≤ 255 ∧ x.2.b ≤ 255 ∧ x.2.a = 255 := by
  intro position normal window c world fuel x h
  obtain ⟨_, h2, h3, h4, h5, _, _, _⟩ := traceAux_mem position normal window world fuel c 0 x h
  exact ⟨h3, h4, h5, h2⟩

/-- C4 witness: concrete instantiation at the first pixel emitted by a
march through the empty world. -/
theorem C4_witness :
    ((⟨0, 0⟩ : Vec2), (⟨255, 255, 255, 255⟩ : Color)).2.r ≤ 255 ∧
    ((⟨0, 0⟩ : Vec2), (⟨255, 255, 255, 255⟩ : Color)).2.g ≤ 255 ∧
    ((⟨0, 0⟩ : Vec2), (⟨255, 255, 255, 255⟩ : Color)).2.b ≤ 255 ∧
    ((⟨0, 0⟩ : Vec2), (⟨255, 255, 255, 255⟩ : Color)).2.a = 255 :=
  C4_theorem ⟨0, 0⟩ ⟨1, 0⟩ ⟨10, 10⟩ ⟨255, 255, 255, 255⟩ emptyWorld 7
    (⟨0, 0⟩, ⟨255, 255, 255, 255⟩)
    (by norm_num [trace_and_plot, traceAux, plot, pixelAt, magAt, stepSize, Vec2.add,
      Vec2.smul, Vec2.cmul, get_color_modifier_of_pixel, firstHitColor, emptyWorld,
      attenuate, clampChannel, Color.BLACK]; omega)

/-- C5: plot yields none exactly when the probe point falls outside the
closed window rectangle, every pixel the march writes is inside the
window, and when the march loop returns, its emitted sequence covers
precisely the steps before the first out-of-window probe. -/
theorem C5_theorem :
    ∀ (position normal : Vec2) (magnitude : ℚ) (window : Vec2) (c : Color) (world : World),
      (plot position normal magnitude window c world = none ↔
        ¬ inWindow (pixelAt position normal window magnitude) window) ∧
      ∀ fuel,
        (∀ x ∈ (trace_and_plot position normal window c world fuel).1, inWindow x.1 window) ∧
        ((trace_and_plot position normal window c world fuel).2 = true →
          (∀ j < (trace_and_plot position normal window c world fuel).1.length,
              inWindow (pixelAt position normal window (magAt j)) window) ∧
          ¬ inWindow (pixelAt position normal window
              (magAt ((trace_and_plot position normal window c world fuel).1.length))) window) := by
  intro position normal magnitude window c world
  refine ⟨plot_eq_none_iff position normal magnitude window c world, fun fuel => ⟨?_, ?_⟩⟩
  · intro x hx
    exact (traceAux_mem position normal window world fuel c 0 x hx).1
  · intro hdone
    obtain ⟨h1, h2⟩ := traceAux_done position normal window world fuel c 0 hdone
    exact ⟨fun j hj => by simpa using h1 j hj, by simpa using h2⟩

/-- C5 witness: at magnitude 20 on a 10 x 10 window the probe (20,0) is
out of bounds and plot yields none; the first pixel written by a concrete
march is inside the window. -/
theorem C5_witness :
    plot ⟨0, 0⟩ ⟨1, 0⟩ 20 ⟨10, 10⟩ ⟨255, 255, 255, 255⟩ emptyWorld = none ∧
    inWindow (⟨0, 0⟩ : Vec2) ⟨10, 10⟩ :=
  ⟨(C5_theorem ⟨0, 0⟩ ⟨1, 0⟩ 20 ⟨10, 10⟩ ⟨255, 255, 255, 255⟩ emptyWorld).1.mpr
      (by norm_num [inWindow, pixelAt, Vec2.add, Vec2.smul, Vec2.cmul]),
   ((C5_theorem ⟨0, 0⟩ ⟨1, 0⟩ 20 ⟨10, 10⟩ ⟨255, 255, 255, 255⟩ emptyWorld).2 7).1
      (⟨0, 0⟩, ⟨255, 255, 255, 255⟩)
      (by norm_num [trace_and_plot, traceAux, plot, pixelAt, magAt, stepSize, Vec2.add,
        Vec2.smul, Vec2.cmul, get_color_modifier_of_pixel, firstHitColor, emptyWorld,
        attenuate, clampChannel, Color.BLACK]; omega)⟩

/-- C6 counterexample: with zero walls but a light whose base color has
alpha 0, every emitted color has alpha forced to 255 and therefore
differs from the light's base color. -/
theorem C6_counterexample :
    trace_and_plot ⟨0, 0⟩ ⟨1, 0⟩ ⟨4, 4⟩ alphaWorld.light.color alphaWorld 5 =
      ([(⟨0, 0⟩, ⟨10, 20, 30, 255⟩), (⟨2, 0⟩, ⟨10, 20, 30, 255⟩),
        (⟨4, 0⟩, ⟨10, 20, 30, 255⟩)], true) ∧
    (⟨10, 20, 30, 255⟩ : Color) ≠ alphaWorld.light.color := by
  constructor
  · norm_num [trace_and_plot, traceAux, plot, pixelAt, magAt, stepSize, Vec2.add,
      Vec2.smul, Vec2.cmul, get_color_modifier_of_pixel, firstHitColor, alphaWorld,
      attenuate, clampChannel, Color.BLACK]; omega
  · simp [alphaWorld, Color.mk.injEq]

/-- C6 (amended): for a zero-wall world, every emitted color carries the
base color's r, g, b channels unchanged with alpha forced to 255 (so the
whole color is unchanged exactly when the base color is fully opaque),
and the sequence ends exactly when the probe first leaves the window. -/
theorem C6_theorem :
    ∀ (position normal window : Vec2) (c : Color) (world : World) (fuel : ℕ),
      world.walls = [] → c.r ≤ 255 → c.g ≤ 255 → c.b ≤ 255 →
      (∀ x ∈ (trace_and_plot position normal window c world fuel).1,
          x.2 = ⟨c.r, c.g, c.b, 255⟩) ∧
      ((trace_and_plot position normal window c world fuel).2 = true →
        (∀ j < (trace_and_plot position normal window c world fuel).1.length,
            inWindow (pixelAt position normal window (magAt j)) window) ∧
        ¬ inWindow (pixelAt position normal window
            (magAt ((trace_and_plot position normal window c world fuel).1.length))) window) := by
  intro position normal window c world fuel hw hr hg hb
  constructor
  · intro x hx
    exact traceAux_zero_walls position normal window world hw fuel c 0 hr hg hb x hx
  · intro hdone
    obtain ⟨h1, h2⟩ := traceAux_done position normal window world fuel c 0 hdone
    exact ⟨fun j hj => by simpa using h1 j hj, by simpa using h2⟩

/-- C6 witness: concrete instantiation with a fully opaque white base
color in the empty world; the first emitted color equals the base color. -/
theorem C6_witness :
    ((⟨0, 0⟩ : Vec2), (⟨255, 255, 255, 255⟩ : Color)).2 = (⟨255, 255, 255, 255⟩ : Color) :=
  (C6_theorem ⟨0, 0⟩ ⟨1, 0⟩ ⟨4, 4⟩ ⟨255, 255, 255, 255⟩ emptyWorld 5 rfl
      (by norm_num) (by norm_num) (by norm_num)).1
    (⟨0, 0⟩, ⟨255, 255, 255, 255⟩)
    (by norm_num [trace_and_plot, traceAux, plot, pixelAt, magAt, stepSize, Vec2.add,
      Vec2.smul, Vec2.cmul, get_color_modifier_of_pixel, firstHitColor, emptyWorld,
      attenuate, clampChannel, Color.BLACK]; omega)

/-- C7: the march magnitude strictly increases by the fixed step each
iteration, and for every direction vector with a nonzero component the
march reaches an out-of-window probe and the loop returns; only a
zero-length direction can fail this hypothesis. -/
theorem C7_theorem :
    ∀ (position normal window : Vec2) (c : Color) (world : World),
      (∀ k : ℕ, magAt k < magAt (k + 1)) ∧
      ((normal.x ≠ 0 ∨ normal.y ≠ 0) →
        ∃ fuel, (trace_and_plot position normal window c world fuel).2 = true) := by
  intro position normal window c world
  refine ⟨magAt_lt, ?_⟩
  intro hn
  obtain ⟨k, hk⟩ := exists_exit position normal window hn
  exact ⟨k + 1, traceAux_exit position normal window world (k + 1) c 0 k
    (by omega) (by simpa using hk)⟩

/-- C7 witness: the march with direction (1,0) from the origin of a
10 x 10 window terminates for some fuel. -/
theorem C7_witness :
    ∃ fuel, (trace_and_plot ⟨0, 0⟩ ⟨1, 0⟩ ⟨10, 10⟩ ⟨255, 255, 255, 255⟩
      emptyWorld fuel).2 = true :=
  (C7_theorem ⟨0, 0⟩ ⟨1, 0⟩ ⟨10, 10⟩ ⟨255, 255, 255, 255⟩ emptyWorld).2
    (Or.inl (show (1 : ℚ) ≠ 0 by norm_num))

/-- C8: the sweep driver performs exactly one trace per integer degree
angle of 0..360, in ascending order (the i-th invocation uses angle i),
with direction vector (cos, sin) of the radian equivalent of the angle;
cos, sin and to_radians are abstracted as arbitrary rational functions. -/
theorem C8_theorem :
    ∀ (c s rad : ℚ → ℚ) (position window : Vec2) (ray_color : Color) (world : World)
      (fuel : ℕ),
      (sweepTraces c s rad position window ray_color world fuel).length = 360 ∧
      ∀ i : ℕ, i < 360 →
        (sweepTraces c s rad position window ray_color world fuel)[i]? =
          some (trace_and_plot position ⟨c (rad (i : ℚ)), s (rad (i : ℚ))⟩
            window ray_color world fuel) := by
  intro c s rad position window ray_color world fuel
  constructor
  · simp [sweepTraces, sweepAngles]
  · intro i hi
    simp [sweepTraces, sweepAngles, List.getElem?_map, List.getElem?_range hi, sweepNormal]

/-- C8 witness: concrete instantiation with constant trigonometric
functions; the sweep makes 360 invocations and the invocation at index 0
is the trace for angle 0. -/
theorem C8_witness :
    (sweepTraces constOne constOne constOne ⟨0, 0⟩ ⟨10, 10⟩ ⟨255, 255, 255, 255⟩
        emptyWorld 0).length = 360 ∧
    (sweepTraces constOne constOne constOne ⟨0, 0⟩ ⟨10, 10⟩ ⟨255, 255, 255, 255⟩
        emptyWorld 0)[0]? =
      some (trace_and_plot ⟨0, 0⟩ ⟨constOne (constOne ((0 : ℕ) : ℚ)),
        constOne (constOne ((0 : ℕ) : ℚ))⟩ ⟨10, 10⟩ ⟨255, 255, 255, 255⟩ emptyWorld 0) :=
  ⟨(C8_theorem constOne constOne constOne ⟨0, 0⟩ ⟨10, 10⟩ ⟨255, 255, 255, 255⟩
      emptyWorld 0).1,
   (C8_theorem constOne constOne constOne ⟨0, 0⟩ ⟨10, 10⟩ ⟨255, 255, 255, 255⟩
      emptyWorld 0).2 0 (by norm_num)⟩

/-- C9: for the determinant-form intersection test modelled from the spec,
any two non-parallel segments yield a point lying exactly on both
segments' infinite-line equations (exactly over ℚ, hence within any
floating-point tolerance), and any two parallel segments — identical ones
included — yield no intersection via the delta = 0 branch. -/
theorem C9_theorem :
    ∀ A B : Seg,
      (cross2 (segDir A) (segDir B) ≠ 0 →
        ∃ p, find_line_intersect A B = some p ∧ onLineOf A p ∧ onLineOf B p) ∧
      (cross2 (segDir A) (segDir B) = 0 → find_line_intersect A B = none) := by
  intro A B
  have hdelta : (A.e.y - A.s.y) * (B.s.x - B.e.x) - (B.e.y - B.s.y) * (A.s.x - A.e.x)
      = cross2 (segDir A) (segDir B) := by
    unfold cross2 segDir Vec2.sub
    ring
  constructor
  · intro h
    have hne : (A.e.y - A.s.y) * (B.s.x - B.e.x) - (B.e.y - B.s.y) * (A.s.x - A.e.x) ≠ 0 := by
      rw [hdelta]; exact h
    simp only [find_line_intersect]
    rw [if_neg hne]
    refine ⟨_, rfl, ?_, ?_⟩
    · unfold onLineOf
      field_simp
      ring
    · unfold onLineOf
      field_simp
      ring
  · intro h
    have heq : (A.e.y - A.s.y) * (B.s.x - B.e.x) - (B.e.y - B.s.y) * (A.s.x - A.e.x) = 0 := by
      rw [hdelta]; exact h
    simp only [find_line_intersect]
    rw [if_pos heq]

/-- C9 witness: the horizontal segment (0,0)-(2,0) and the vertical
segment (1,-1)-(1,1) are non-parallel and the test returns a point on
both lines. -/
theorem C9_witness :
    ∃ p, find_line_intersect ⟨⟨0, 0⟩, ⟨2, 0⟩⟩ ⟨⟨1, -1⟩, ⟨1, 1⟩⟩ = some p ∧
      onLineOf ⟨⟨0, 0⟩, ⟨2, 0⟩⟩ p ∧ onLineOf ⟨⟨1, -1⟩, ⟨1, 1⟩⟩ p :=
  (C9_theorem ⟨⟨0, 0⟩, ⟨2, 0⟩⟩ ⟨⟨1, -1⟩, ⟨1, 1⟩⟩).1
    (by norm_num [cross2, segDir, Vec2.sub])

/-- C10: along any traced ray every emitted color is per-channel at most
the starting color in r, g, b, and consecutive emitted colors are
per-channel non-increasing: each step subtracts a non-negative modifier
with clamping at zero and carries the result forward. -/
theorem C10_theorem :
    ∀ (position normal window : Vec2) (c : Color) (world : World) (fuel : ℕ),
      (∀ x ∈ (trace_and_plot position normal window c world fuel).1,
          x.2.r ≤ c.r ∧ x.2.g ≤ c.g ∧ x.2.b ≤ c.b) ∧
      ∀ i a b,
        ((trace_and_plot position normal window c world fuel).1)[i]? = some a →
        ((trace_and_plot position normal window c world fuel).1)[i + 1]? = some b →
        b.2.r ≤ a.2.r ∧ b.2.g ≤ a.2.g ∧ b.2.b ≤ a.2.b := by
  intro position normal window c world fuel
  constructor
  · intro x hx
    obtain ⟨_, _, _, _, _, h6, h7, h8⟩ := traceAux_mem position normal window world fuel c 0 x hx
    exact ⟨h6, h7, h8⟩
  · intro i a b ha hb
    exact traceAux_consec position normal window world fuel c 0 i a b ha hb

/-- C10 witness: marching through a world with a wall crossing at x = 4,
the color emitted at step 2 is per-channel at most the color emitted at
step 1 (the red channel actually drops from 255 to 155). -/
theorem C10_witness :
    ((⟨4, 0⟩ : Vec2), (⟨155, 255, 255, 255⟩ : Color)).2.r ≤
      ((⟨2, 0⟩ : Vec2), (⟨255, 255, 255, 255⟩ : Color)).2.r ∧
    ((⟨4, 0⟩ : Vec2), (⟨155, 255, 255, 255⟩ : Color)).2.g ≤
      ((⟨2, 0⟩ : Vec2), (⟨255, 255, 255, 255⟩ : Color)).2.g ∧
    ((⟨4, 0⟩ : Vec2), (⟨155, 255, 255, 255⟩ : Color)).2.b ≤
      ((⟨2, 0⟩ : Vec2), (⟨255, 255, 255, 255⟩ : Color)).2.b :=
  (C10_theorem ⟨0, 0⟩ ⟨1, 0⟩ ⟨10, 10⟩ ⟨255, 255, 255, 255⟩ crossWorld 7).2 1
    (⟨2, 0⟩, ⟨255, 255, 255, 255⟩) (⟨4, 0⟩, ⟨155, 255, 255, 255⟩)
    (by norm_num [trace_and_plot, traceAux, plot, pixelAt, magAt, stepSize, Vec2.add,
      Vec2.smul, Vec2.cmul, Vec2.sub, Vec2.dot, Vec2.normSq, get_color_modifier_of_pixel,
      firstHitColor, find_intersect, segDistSq, crossWorld, attenuate, clampChannel,
      Color.BLACK, Vec2.mk.injEq]; omega)
    (by norm_num [trace_and_plot, traceAux, plot, pixelAt, magAt, stepSize, Vec2.add,
      Vec2.smul, Vec2.cmul, Vec2.sub, Vec2.dot, Vec2.normSq, get_color_modifier_of_pixel,
      firstHitColor, find_intersect, segDistSq, crossWorld, attenuate, clampChannel,
      Color.BLACK, Vec2.mk.injEq]; omega)
